import Mathlib

set_option maxHeartbeats 1000000

namespace TTT



/- Verification development for the tic-tac-toe Q-learning trainer
   (train_tic_tac_toe.py) and the interactive advisor surface of
   tic_tac_toe_pygame.py.

   Modeling conventions:
   - Python floats are modeled as rationals (exact real arithmetic); the
     exploration-decay schedule, which uses a real-valued power, is modeled
     over the reals.
   - Python dicts are modeled as association lists with update-in-place-or-
     append semantics (`dset`) and first-match lookup (`dget?`); Python dicts
     never hold duplicate keys, so on the lists actually produced the two
     agree with dict semantics.
   - Randomness (`random.random`, `random.choice`) is modeled by explicit
     oracle arguments: a rational standing for the drawn float and a natural
     number selecting an element of the nonempty candidate list.
   - String indexing (`state_str[i]`, `lst[i] = v`) is total in the model via
     a default; every claim constrains indices to [0,8] on 9-character
     states, where the model and Python agree. -/

/- ---------------------------------------------------------------
   Python dict model
   --------------------------------------------------------------- -/

/-- Lookup in an association list, first match wins (Python `d.get`/`d[k]`). -/
def dget? {κ β : Type} [DecidableEq κ] : List (κ × β) → κ → Option β
  | [], _ => none
  | e :: t, k => if e.1 = k then some e.2 else dget? t k

/-- Update-or-append (Python `d[k] = v`). -/
def dset {κ β : Type} [DecidableEq κ] : List (κ × β) → κ → β → List (κ × β)
  | [], k, v => [(k, v)]
  | e :: t, k, v => if e.1 = k then (k, v) :: t else e :: dset t k v

@[simp] theorem dget?_nil {κ β : Type} [DecidableEq κ] (k : κ) :
    dget? ([] : List (κ × β)) k = none := rfl

/-- The keys of an association list. -/
def dkeys {κ β : Type} (l : List (κ × β)) : List κ := l.map Prod.fst

/- ---------------------------------------------------------------
   Board model (game logic shared by both files)
   --------------------------------------------------------------- -/

/-- `initial_state()`: 9 spaces. -/
def initial_state : String := "         "

/-- `available_actions(state_str)`: indices of blank cells,
`[i for i, ch in enumerate(state_str) if ch == ' ']`. -/
def available_actions (s : String) : List ℤ :=
  s.data.enum.filterMap fun p => if p.2 = ' ' then some ((p.1 : ℤ)) else none

/-- `next_state(state_str, action, symbol)`: write `symbol` at index `action`.
The Python code mutates `list(state_str)` with no emptiness check and joins it
back; every caller passes an index in [0,8]. -/
def next_state (s : String) (action : ℤ) (symbol : Char) : String :=
  ⟨s.data.set action.toNat symbol⟩

/-- The eight winning lines of `check_winner`. -/
def wins : List (ℕ × ℕ × ℕ) :=
  [(0,1,2), (3,4,5), (6,7,8), (0,3,6), (1,4,7), (2,5,8), (0,4,8), (2,4,6)]

/-- Reading a board cell (`state_str[i]`), totalized with a blank default. -/
def cellAt (s : String) (i : ℕ) : Char := s.data.getD i ' '

/-- `check_winner(state_str, symbol)`. -/
def check_winner (s : String) (symbol : Char) : Bool :=
  wins.any fun w =>
    (cellAt s w.1 == symbol) && (cellAt s w.2.1 == symbol) && (cellAt s w.2.2 == symbol)

/-- `is_draw(state_str)`: `' ' not in state_str`. -/
def is_draw (s : String) : Bool := ! s.data.contains ' '

/- ---------------------------------------------------------------
   Q-learning support (train_tic_tac_toe.py); floats as rationals
   --------------------------------------------------------------- -/

def ALPHA : ℚ := 0.5

def GAMMA : ℚ := 0.9

def REWARD_WIN : ℚ := 1.0

def REWARD_LOSE : ℚ := -1.0

def REWARD_DRAW : ℚ := 0.0

/-- The Q dictionary: `dict((state, action) -> q_value)`. -/
abbrev QTable := List ((String × ℤ) × ℚ)

/-- `get_q_value(state, action)`: `Q.get((state, action), 0.0)`. -/
def get_q_value (Q : QTable) (state : String) (action : ℤ) : ℚ :=
  (dget? Q (state, action)).getD 0.0

/-- Python `max` over a nonempty list of floats (empty case is never taken by
the guarded caller; we return 0 there). -/
def pyMaxList : List ℚ → ℚ
  | [] => 0
  | x :: xs => xs.foldl max x

/-- Python `max(l, key=f)`: first element attaining the maximal key
(later elements replace the current best only on strictly greater key). -/
def pyMaxBy {α : Type} : List α → (α → ℚ) → Option α
  | [], _ => none
  | x :: xs, f => some (xs.foldl (fun b y => if f y > f b then y else b) x)

/-- `best_action(state)`. -/
def best_action (Q : QTable) (state : String) : Option ℤ :=
  let acts := available_actions state
  if acts.isEmpty then none
  else pyMaxBy acts (fun a => get_q_value Q state a)

/-- `epsilon_greedy_action(state, epsilon)`; `r` models the draw of
`random.random()` and `k` the draw of `random.choice` (which picks the
`k % len`-th element of the nonempty candidate list). -/
def epsilon_greedy_action (Q : QTable) (state : String) (epsilon r : ℚ) (k : ℕ) :
    Option ℤ :=
  let acts := available_actions state
  if acts.isEmpty then none
  else if r < epsilon then some (acts.getD (k % acts.length) 0)
  else best_action Q state

/-- `update_q_value(old_state, action, reward, new_state)`. -/
def update_q_value (Q : QTable) (old_state : String) (action : ℤ) (reward : ℚ)
    (new_state : String) : QTable :=
  let old_q := get_q_value Q old_state action
  let next_acts := available_actions new_state
  let max_q_next := if next_acts.isEmpty then 0.0
    else pyMaxList (next_acts.map fun a => get_q_value Q new_state a)
  dset Q (old_state, action) (old_q + ALPHA * (reward + GAMMA * max_q_next - old_q))

/-- `choose_best_action(state)` from tic_tac_toe_pygame.py; `k` models the
draw of `random.choice` as above. -/
def choose_best_action (Q : QTable) (state : String) (k : ℕ) : Option ℤ :=
  let valid_actions := available_actions state
  if valid_actions.isEmpty then none
  else
    let qvals := valid_actions.map fun a => (get_q_value Q state a, a)
    if qvals.all fun qv => qv.1 == 0.0 then
      some (valid_actions.getD (k % valid_actions.length) 0)
    else (pyMaxBy qvals fun x => x.1).map fun x => x.2

/-- The fold inside `pyMaxBy`: keep the current best, replace only on a
strictly greater key. -/
def pyFold {α : Type} (f : α → ℚ) (x : α) (xs : List α) : α :=
  xs.foldl (fun b y => if f y > f b then y else b) x

/- ---------------------------------------------------------------
   Claim C9: play_one_game
   --------------------------------------------------------------- -/

/-- One self-play game, `play_one_game(epsilon)`. The Python `while True`
loop is modeled with an explicit fuel parameter (`none` = fuel exhausted);
the termination theorem below shows fuel 10 is never exhausted. `oracle`
supplies, per iteration, the `random.random()` draw and the
`random.choice` selector used by `epsilon_greedy_action`. -/
def play_loop (oracle : ℕ → ℚ × ℕ) (epsilon : ℚ) :
    ℕ → ℕ → QTable → String → Char → Char → (Char → Option String) →
    (Char → Option ℤ) → Option (ℤ × QTable)
  | 0, _, _, _, _, _, _, _ => none
  | fuel + 1, step, Q, state, current_symbol, other_symbol, last_state,
      last_action =>
    match epsilon_greedy_action Q state epsilon (oracle step).1 (oracle step).2 with
    | none => some (0, Q)
    | some action =>
      let old_state := state
      let state2 := next_state state action current_symbol
      let Q1 := match last_state current_symbol, last_action current_symbol with
        | some ls, some la => update_q_value Q ls la 0.0 old_state
        | _, _ => Q
      if check_winner state2 current_symbol then
        let Q2 := update_q_value Q1 old_state action REWARD_WIN state2
        let Q3 := match last_state other_symbol, last_action other_symbol with
          | some ls, some la => update_q_value Q2 ls la REWARD_LOSE old_state
          | _, _ => Q2
        some (if current_symbol = 'X' then 1 else -1, Q3)
      else if is_draw state2 then
        some (0, update_q_value Q1 old_state action REWARD_DRAW state2)
      else
        play_loop oracle epsilon fuel (step + 1) Q1 state2 other_symbol
          current_symbol
          (fun c => if c = current_symbol then some old_state else last_state c)
          (fun c => if c = current_symbol then some action else last_action c)

def play_one_game (oracle : ℕ → ℚ × ℕ) (Q : QTable) (epsilon : ℚ) :
    Option (ℤ × QTable) :=
  play_loop oracle epsilon 10 0 Q initial_state 'X' 'O'
    (fun _ => none) (fun _ => none)

/- ---------------------------------------------------------------
   Claim C4: the exploration schedule of main()
   --------------------------------------------------------------- -/

/- The decay schedule uses a fractional power of floats; it is modeled over
the reals with the real power function. -/

def EPSILON_START : ℝ := 1.0

def EPSILON_END : ℝ := 0.01

def EPISODES : ℕ := 20000

/-- `decay = (EPSILON_END / EPSILON_START) ** (1.0 / EPISODES)` under the
guard `EPSILON_START > 0` of main(), else 1.0. -/
noncomputable def decay : ℝ :=
  if 0 < EPSILON_START then
    (EPSILON_END / EPSILON_START) ^ ((1 : ℝ) / (EPISODES : ℝ))
  else 1.0

/-- The per-episode epsilon: starts at `EPSILON_START`, and after each
episode `epsilon = max(EPSILON_END, epsilon * decay)`. -/
noncomputable def epsSeq : ℕ → ℝ
  | 0 => EPSILON_START
  | n + 1 => max EPSILON_END (epsSeq n * decay)

/- ---------------------------------------------------------------
   Persistence: save_q_table / load_q_table (claims C5 and C6)

   The JSON text file is modeled abstractly: a `FileData` is either a
   missing file, a file whose text is not valid JSON, or a parsed JSON
   value. `Json.obj` association lists stand for parsed Python dicts
   (json.load yields unique keys). All Python exceptions escaping
   load (JSONDecodeError, AttributeError on .items(), ValueError from
   int()) are collapsed into the spec's abstract `CorruptDataError`.
   --------------------------------------------------------------- -/

/-- JSON values; numbers as rationals. -/
inductive Json : Type
  | null : Json
  | bool (b : Bool) : Json
  | num (q : ℚ) : Json
  | str (s : String) : Json
  | arr (l : List Json) : Json
  | obj (l : List (String × Json)) : Json

/-- The outcome of trying to read and parse the persisted file. -/
inductive FileData : Type
  | missing
  | invalidText
  | json (j : Json)

inductive LoadError : Type
  | corruptData

/-- Digit-string value; `none` on an empty string or a non-digit. -/
def digitsToNat (l : List Char) : Option ℕ :=
  if l = [] then none
  else
    l.foldl (fun acc c => acc.bind fun n =>
      if c.isDigit then some (n * 10 + (c.toNat - '0'.toNat)) else none)
      (some 0)

/-- Python `int(action_str)`: an optional minus sign followed by digits
(Python's additional tolerance for surrounding whitespace and underscores
is not modeled; no key written by `save_q_table` uses it). -/
def pyIntOfString (t : String) : Option ℤ :=
  match t.data with
  | [] => none
  | '-' :: rest => (digitsToNat rest).map fun n => -(n : ℤ)
  | l => (digitsToNat l).map fun n => (n : ℤ)

/-- The loaded table: `load_q_table` stores each JSON leaf value as-is
(`Q[(state, action)] = value` performs no numeric check). -/
abbrev LoadedTable := List ((String × ℤ) × Json)

/-- One step of the inner load loop:
`action = int(action_str); Q[(state, action)] = value`; `int` failure
aborts the load. -/
def inner_step (state : String) (macc : Option LoadedTable)
    (e : String × Json) : Option LoadedTable :=
  macc.bind fun A =>
    (pyIntOfString e.1).map fun action => dset A (state, action) e.2

/-- Inner loop of `load_q_table`:
`for action_str, value in actions.items(): ...`. -/
def decode_inner (state : String) (il : List (String × Json))
    (acc : LoadedTable) : Option LoadedTable :=
  il.foldl (inner_step state) (some acc)

/-- One step of the outer load loop; a non-dict `actions` aborts the load. -/
def outer_step (macc : Option LoadedTable) (e : String × Json) :
    Option LoadedTable :=
  macc.bind fun A =>
    match e.2 with
    | Json.obj il => decode_inner e.1 il A
    | _ => none

/-- Outer loop of `load_q_table`: `for state, actions in q_data.items()`. -/
def decode_outer (l : List (String × Json)) : Option LoadedTable :=
  l.foldl outer_step (some [])

/-- `load_q_table(file_path)`: a missing file yields an empty table; any
failure while parsing or walking the structure is the load failure. -/
def load_q_table : FileData → Except LoadError LoadedTable
  | FileData.missing => Except.ok []
  | FileData.invalidText => Except.error LoadError.corruptData
  | FileData.json j =>
    match j with
    | Json.obj l =>
      match decode_outer l with
      | some T => Except.ok T
      | none => Except.error LoadError.corruptData
    | _ => Except.error LoadError.corruptData

def load_ok (f : FileData) : Bool :=
  match load_q_table f with
  | Except.ok _ => true
  | Except.error _ => false

/-- One iteration of the save loop over `Q.items()`:
`if state not in q_data: q_data[state] = {}` then
`q_data[state][str(action)] = value`. -/
def save_step (q_data : List (String × List (String × ℚ)))
    (e : (String × ℤ) × ℚ) : List (String × List (String × ℚ)) :=
  dset q_data e.1.1 (dset ((dget? q_data e.1.1).getD []) (toString e.1.2) e.2)

def build_q_data (Q : QTable) : List (String × List (String × ℚ)) :=
  Q.foldl save_step []

/-- `save_q_table(file_path)`: `json.dump(q_data, f)` of the nested dict. -/
def save_q_table (Q : QTable) : Json :=
  Json.obj ((build_q_data Q).map fun p =>
    (p.1, Json.obj (p.2.map fun q => (q.1, Json.num q.2))))

/-- What the load code accepts without failing: an object of objects whose
inner keys parse as integers (leaf values are not inspected). -/
def well_formed_q_json : Json → Bool
  | Json.obj l =>
    l.all fun e =>
      match e.2 with
      | Json.obj il => il.all fun q => (pyIntOfString q.1).isSome
      | _ => false
  | _ => false

/-- Modelled from the spec (section 6, persisted table format): a mapping
from 9-character state strings to nested mappings from action keys
"0".."8" to numeric values. This is the spec's notion of a structurally
well-formed file, used to compare against what the code accepts. -/
def conforms_spec_format : Json → Bool
  | Json.obj l =>
    l.all fun e =>
      (e.1.length == 9) &&
        match e.2 with
        | Json.obj il =>
          il.all fun q =>
            (["0", "1", "2", "3", "4", "5", "6", "7", "8"].contains q.1) &&
              match q.2 with
              | Json.num _ => true
              | _ => false
        | _ => false
  | _ => false

/- ---------------------------------------------------------------
   Claim C6: save followed by load reproduces the table
   --------------------------------------------------------------- -/

/-- Lookup through the nested save structure. -/
def lookup2 (nd : List (String × List (String × ℚ))) (s t : String) :
    Option ℚ :=
  (dget? nd s).bind fun il => dget? il t

/-- The invariant maintained on the nested save structure: unique outer
keys, unique inner keys, and every inner key is the decimal string of an
action in [0,8]. -/
def nested_inv (nd : List (String × List (String × ℚ))) : Prop :=
  (dkeys nd).Nodup ∧ (∀ p ∈ nd, (dkeys p.2).Nodup) ∧
    ∀ p ∈ nd, ∀ q ∈ p.2, ∃ b : ℤ, 0 ≤ b ∧ b ≤ 8 ∧ q.1 = toString b



/- ---------------------------------------------------------------
   Theorems
   --------------------------------------------------------------- -/

theorem dget?_cons {κ β : Type} [DecidableEq κ] (e : κ × β) (t : List (κ × β)) (k : κ) :
    dget? (e :: t) k = if e.1 = k then some e.2 else dget? t k := rfl

theorem dget?_dset_self {κ β : Type} [DecidableEq κ]
    (l : List (κ × β)) (k : κ) (v : β) : dget? (dset l k v) k = some v := by
  induction l with
  | nil => simp [dset, dget?]
  | cons e t ih =>
    by_cases h : e.1 = k
    · simp [dset, h, dget?]
    · simp [dset, h, dget?, ih]

theorem dget?_dset_ne {κ β : Type} [DecidableEq κ]
    (l : List (κ × β)) (k k' : κ) (v : β) (h : k' ≠ k) :
    dget? (dset l k v) k' = dget? l k' := by
  have hkk : ¬ k = k' := fun h' => h h'.symm
  induction l with
  | nil => simp [dset, dget?, hkk]
  | cons e t ih =>
    by_cases he : e.1 = k
    · rw [show dset (e :: t) k v = (k, v) :: t by simp [dset, he]]
      simp [dget?, hkk, he]
    · rw [show dset (e :: t) k v = e :: dset t k v by simp [dset, he]]
      simp [dget?, ih]

theorem mem_dset {κ β : Type} [DecidableEq κ]
    (l : List (κ × β)) (k : κ) (v : β) :
    ∀ e ∈ dset l k v, e ∈ l ∨ e = (k, v) := by
  induction l with
  | nil => intro e he; simp [dset] at he; right; exact he
  | cons e0 t ih =>
    intro e he
    by_cases h : e0.1 = k
    · simp [dset, h] at he
      rcases he with he | he
      · right; exact he
      · left; exact List.mem_cons_of_mem _ he
    · simp [dset, h] at he
      rcases he with he | he
      · left; simp [he]
      · rcases ih e he with h1 | h1
        · left; exact List.mem_cons_of_mem _ h1
        · right; exact h1

theorem dkeys_dset_subset {κ β : Type} [DecidableEq κ]
    (l : List (κ × β)) (k : κ) (v : β) :
    ∀ k' ∈ dkeys (dset l k v), k' ∈ dkeys l ∨ k' = k := by
  intro k' hk'
  rcases List.mem_map.1 hk' with ⟨e, he, rfl⟩
  rcases mem_dset l k v e he with h | h
  · left; exact List.mem_map_of_mem _ h
  · right; rw [h]

theorem nodup_dkeys_dset {κ β : Type} [DecidableEq κ]
    (l : List (κ × β)) (k : κ) (v : β) (h : (dkeys l).Nodup) :
    (dkeys (dset l k v)).Nodup := by
  induction l with
  | nil => simp [dset, dkeys]
  | cons e t ih =>
    simp only [dkeys, List.map_cons, List.nodup_cons] at h
    by_cases hk : e.1 = k
    · rw [show dset (e :: t) k v = (k, v) :: t by simp [dset, hk]]
      simp only [dkeys, List.map_cons, List.nodup_cons]
      exact ⟨hk ▸ h.1, h.2⟩
    · rw [show dset (e :: t) k v = e :: dset t k v by simp [dset, hk]]
      simp only [dkeys, List.map_cons, List.nodup_cons]
      refine ⟨?_, ih h.2⟩
      intro hmem
      rcases dkeys_dset_subset t k v _ hmem with h1 | h1
      · exact h.1 h1
      · exact hk h1

/- ---------------------------------------------------------------
   Basic lemmas about the board model
   --------------------------------------------------------------- -/

theorem pairwise_fst_lt_enum {α : Type} (l : List α) :
    l.enum.Pairwise fun p q => p.1 < q.1 := by
  have h : List.map Prod.fst ((List.range l.length).zip l) = List.range l.length :=
    List.map_fst_zip _ _ (by simp)
  have hp := List.pairwise_lt_range l.length
  rw [← h] at hp
  rw [List.enum_eq_zip_range]
  exact List.pairwise_map.1 hp

theorem available_actions_sorted (s : String) :
    (available_actions s).Pairwise (· < ·) := by
  refine List.Pairwise.filterMap _ ?_ (pairwise_fst_lt_enum s.data)
  intro a a' h b hb b' hb'
  rw [Option.mem_def] at hb hb'
  simp only [Option.ite_none_right_eq_some, Option.some.injEq] at hb hb'
  rw [← hb.2, ← hb'.2]
  exact_mod_cast h

theorem mem_available_actions {s : String} {a : ℤ} :
    a ∈ available_actions s ↔ ∃ i : ℕ, a = (i : ℤ) ∧ s.data[i]? = some ' ' := by
  constructor
  · intro h
    rcases List.mem_filterMap.1 h with ⟨p, hp, hfp⟩
    simp only [Option.ite_none_right_eq_some, Option.some.injEq] at hfp
    refine ⟨p.1, hfp.2.symm, ?_⟩
    have := List.mem_enum_iff_getElem?.1 hp
    rw [this, hfp.1]
  · rintro ⟨i, rfl, hi⟩
    refine List.mem_filterMap.2 ⟨(i, ' '), ?_, by simp⟩
    exact List.mem_enum_iff_getElem?.2 hi

theorem available_actions_eq_nil_iff {s : String} :
    available_actions s = [] ↔ ' ' ∉ s.data := by
  constructor
  · intro h hmem
    rcases List.mem_iff_getElem.1 hmem with ⟨i, hi, hval⟩
    have hmem2 : (i : ℤ) ∈ available_actions s :=
      mem_available_actions.2 ⟨i, rfl, by rw [List.getElem?_eq_getElem hi, hval]⟩
    rw [h] at hmem2
    exact absurd hmem2 (List.not_mem_nil _)
  · intro h
    rcases hne : available_actions s with _ | ⟨a, t⟩
    · rfl
    · exfalso
      have ha : a ∈ available_actions s := by rw [hne]; exact List.mem_cons_self a t
      rcases mem_available_actions.1 ha with ⟨i, _, hi⟩
      exact h (List.getElem?_mem hi)

/- ---------------------------------------------------------------
   Lemmas about Python max
   --------------------------------------------------------------- -/

theorem foldl_max_eq_or_mem (xs : List ℚ) :
    ∀ x : ℚ, xs.foldl max x = x ∨ xs.foldl max x ∈ xs := by
  induction xs with
  | nil => intro x; left; rfl
  | cons y ys ih =>
    intro x
    rw [List.foldl_cons]
    rcases ih (max x y) with h | h
    · rcases max_choice x y with hm | hm
      · left; rw [h, hm]
      · right; rw [h, hm]; exact List.mem_cons_self _ _
    · right; exact List.mem_cons_of_mem _ h

theorem le_foldl_max (xs : List ℚ) :
    ∀ x : ℚ, x ≤ xs.foldl max x ∧ ∀ a ∈ xs, a ≤ xs.foldl max x := by
  induction xs with
  | nil => intro x; exact ⟨le_refl x, by simp⟩
  | cons y ys ih =>
    intro x
    rw [List.foldl_cons]
    rcases ih (max x y) with ⟨h1, h2⟩
    refine ⟨le_trans (le_max_left x y) h1, ?_⟩
    intro a ha
    rcases List.mem_cons.1 ha with rfl | ha
    · exact le_trans (le_max_right x a) h1
    · exact h2 a ha

theorem pyMaxList_mem (xs : List ℚ) (h : xs ≠ []) : pyMaxList xs ∈ xs := by
  cases xs with
  | nil => exact absurd rfl h
  | cons x t =>
    rcases foldl_max_eq_or_mem t x with h1 | h1
    · rw [pyMaxList, h1]; exact List.mem_cons_self _ _
    · rw [pyMaxList]; exact List.mem_cons_of_mem _ h1

theorem le_pyMaxList (xs : List ℚ) : ∀ a ∈ xs, a ≤ pyMaxList xs := by
  cases xs with
  | nil => simp
  | cons x t =>
    intro a ha
    rcases List.mem_cons.1 ha with rfl | ha
    · exact (le_foldl_max t a).1
    · exact (le_foldl_max t x).2 a ha

theorem pyMaxBy_cons {α : Type} (f : α → ℚ) (x : α) (xs : List α) :
    pyMaxBy (x :: xs) f = some (pyFold f x xs) := rfl

theorem pyFold_spec {α : Type} (f : α → ℚ) :
    ∀ (xs : List α) (x : α),
      (pyFold f x xs = x ∨ (pyFold f x xs ∈ xs ∧ f x < f (pyFold f x xs))) ∧
      ∀ a ∈ xs, f a ≤ f (pyFold f x xs) := by
  intro xs
  induction xs with
  | nil => intro x; exact ⟨Or.inl rfl, by simp⟩
  | cons y ys ih =>
    intro x
    by_cases hgt : f y > f x
    · have hstep : pyFold f x (y :: ys) = pyFold f y ys := by
        simp [pyFold, List.foldl_cons, hgt]
      rcases ih y with ⟨h1, h2⟩
      constructor
      · rcases h1 with h1 | h1
        · right
          rw [hstep, h1]
          exact ⟨List.mem_cons_self _ _, hgt⟩
        · right
          rw [hstep]
          exact ⟨List.mem_cons_of_mem _ h1.1, lt_trans hgt h1.2⟩
      · intro a ha
        rw [hstep]
        rcases List.mem_cons.1 ha with rfl | ha
        · rcases ih a with ⟨hh1, _⟩
          rcases hh1 with hh1 | hh1
          · rw [hh1]
          · exact le_of_lt hh1.2
        · exact h2 a ha
    · have hstep : pyFold f x (y :: ys) = pyFold f x ys := by
        simp [pyFold, List.foldl_cons, hgt]
      rcases ih x with ⟨h1, h2⟩
      constructor
      · rcases h1 with h1 | h1
        · left; rw [hstep, h1]
        · right
          rw [hstep]
          exact ⟨List.mem_cons_of_mem _ h1.1, h1.2⟩
      · intro a ha
        rw [hstep]
        rcases List.mem_cons.1 ha with rfl | ha
        · rcases h1 with h1 | h1
          · rw [h1]; exact le_of_not_lt hgt
          · exact le_trans (le_of_not_lt hgt) (le_of_lt h1.2)
        · exact h2 a ha

theorem pyMaxBy_spec {α : Type} (f : α → ℚ) (x : α) (xs : List α) :
    ∃ b, pyMaxBy (x :: xs) f = some b ∧ b ∈ x :: xs ∧
      (∀ a ∈ x :: xs, f a ≤ f b) ∧
      (b = x ∨ (b ∈ xs ∧ f x < f b)) := by
  refine ⟨pyFold f x xs, rfl, ?_, ?_, (pyFold_spec f xs x).1⟩
  · rcases (pyFold_spec f xs x).1 with h | h
    · rw [h]; exact List.mem_cons_self _ _
    · exact List.mem_cons_of_mem _ h.1
  · intro a ha
    rcases List.mem_cons.1 ha with rfl | ha
    · rcases (pyFold_spec f xs a).1 with h | h
      · rw [h]
      · exact le_of_lt h.2
    · exact (pyFold_spec f xs x).2 a ha

/-- First-maximizer tie-breaking: on a strictly sorted candidate list the
chosen element is the least index among the maximizers. -/
theorem pyMaxBy_tiebreak (f : ℤ → ℚ) :
    ∀ (xs : List ℤ) (x : ℤ), (x :: xs).Pairwise (· < ·) →
      ∀ a ∈ x :: xs, f a = f (pyFold f x xs) → pyFold f x xs ≤ a := by
  intro xs
  induction xs with
  | nil =>
    intro x _ a ha _
    rcases List.mem_cons.1 ha with rfl | ha
    · exact le_refl _
    · exact absurd ha (List.not_mem_nil _)
  | cons y ys ih =>
    intro x hsort a ha heq
    have hxy : x < y := List.rel_of_pairwise_cons hsort (List.mem_cons_self _ _)
    have hsort' : (y :: ys).Pairwise (· < ·) := hsort.tail
    by_cases hgt : f y > f x
    · have hstep : pyFold f x (y :: ys) = pyFold f y ys := by
        simp [pyFold, List.foldl_cons, hgt]
      rw [hstep] at heq ⊢
      rcases List.mem_cons.1 ha with rfl | ha
      · exfalso
        have h1 : f a < f y := hgt
        have h2 : f y ≤ f (pyFold f y ys) := by
          rcases (pyFold_spec f ys y).1 with h | h
          · rw [h]
          · exact le_of_lt h.2
        rw [heq] at h1
        exact absurd (lt_of_lt_of_le h1 h2) (lt_irrefl _)
      · exact ih y hsort' a ha heq
    · have hstep : pyFold f x (y :: ys) = pyFold f x ys := by
        simp [pyFold, List.foldl_cons, hgt]
      rw [hstep] at heq ⊢
      rcases List.mem_cons.1 ha with rfl | ha
      · rcases (pyFold_spec f ys a).1 with h | h
        · rw [h]
        · exact absurd (heq ▸ h.2) (lt_irrefl _)
      · rcases List.mem_cons.1 ha with rfl | ha
        · -- a = y, and the fold skipped y; show the result is ≤ y
          rcases (pyFold_spec f ys x).1 with h | h
          · rw [h]; exact le_of_lt hxy
          · -- result strictly beats x, but f a ≤ f x would contradict equality
            exfalso
            have hay : f a ≤ f x := le_of_not_lt hgt
            rw [heq] at hay
            exact absurd (lt_of_lt_of_le h.2 hay) (lt_irrefl _)
        · -- a ∈ ys: sortedness of x :: ys lets the induction apply
          have hsort2 : (x :: ys).Pairwise (· < ·) := by
            have hsub : (x :: ys).Sublist (x :: y :: ys) := by
              refine List.Sublist.cons₂ x ?_
              exact List.sublist_cons_self y ys
            exact hsort.sublist hsub
          exact ih x hsort2 a (List.mem_cons_of_mem _ ha) heq

/- ---------------------------------------------------------------
   Counting lemmas for the winner property
   --------------------------------------------------------------- -/

theorem count_ge_two (m : Char) :
    ∀ (l : List Char) (i j : ℕ), i < j →
      l[i]? = some m → l[j]? = some m → 2 ≤ l.count m := by
  intro l
  induction l with
  | nil => intro i j _ h1 _; simp at h1
  | cons x xs ih =>
    intro i j hij h1 h2
    cases i with
    | zero =>
      simp only [List.getElem?_cons_zero, Option.some.injEq] at h1
      obtain ⟨j', rfl⟩ : ∃ j', j = j' + 1 := ⟨j - 1, by omega⟩
      simp only [List.getElem?_cons_succ] at h2
      have hmem : m ∈ xs := List.getElem?_mem h2
      have hone : 1 ≤ xs.count m := List.count_pos_iff.2 hmem
      subst h1
      rw [List.count_cons_self]
      omega
    | succ i' =>
      obtain ⟨j', rfl⟩ : ∃ j', j = j' + 1 := ⟨j - 1, by omega⟩
      simp only [List.getElem?_cons_succ] at h1 h2
      have := ih i' j' (by omega) h1 h2
      simp only [List.count_cons]
      split <;> omega

theorem count_ge_three (m : Char) :
    ∀ (l : List Char) (i j k : ℕ), i < j → j < k →
      l[i]? = some m → l[j]? = some m → l[k]? = some m → 3 ≤ l.count m := by
  intro l
  induction l with
  | nil => intro i j k _ _ h1 _ _; simp at h1
  | cons x xs ih =>
    intro i j k hij hjk h1 h2 h3
    cases i with
    | zero =>
      simp only [List.getElem?_cons_zero, Option.some.injEq] at h1
      obtain ⟨j', rfl⟩ : ∃ j', j = j' + 1 := ⟨j - 1, by omega⟩
      obtain ⟨k', rfl⟩ : ∃ k', k = k' + 1 := ⟨k - 1, by omega⟩
      simp only [List.getElem?_cons_succ] at h2 h3
      have htwo := count_ge_two m xs j' k' (by omega) h2 h3
      subst h1
      rw [List.count_cons_self]
      omega
    | succ i' =>
      obtain ⟨j', rfl⟩ : ∃ j', j = j' + 1 := ⟨j - 1, by omega⟩
      obtain ⟨k', rfl⟩ : ∃ k', k = k' + 1 := ⟨k - 1, by omega⟩
      simp only [List.getElem?_cons_succ] at h1 h2 h3
      have := ih i' j' k' (by omega) (by omega) h1 h2 h3
      simp only [List.count_cons]
      split <;> omega

theorem cellAt_eq_getElem? {s : String} {i : ℕ} {m : Char} (hm : m ≠ ' ')
    (h : cellAt s i = m) : s.data[i]? = some m := by
  rw [cellAt, List.getD_eq_getElem?_getD] at h
  cases hval : s.data[i]? with
  | none => rw [hval] at h; exact absurd h.symm hm
  | some c =>
      rw [hval] at h
      simp only [Option.getD_some] at h
      rw [h]

theorem three_cells_count {s : String} {m : Char} {i j k : ℕ} (hm : m ≠ ' ')
    (hij : i < j) (hjk : j < k) (h1 : cellAt s i = m) (h2 : cellAt s j = m)
    (h3 : cellAt s k = m) : 3 ≤ s.data.count m :=
  count_ge_three m s.data i j k hij hjk (cellAt_eq_getElem? hm h1)
    (cellAt_eq_getElem? hm h2) (cellAt_eq_getElem? hm h3)

/- ---------------------------------------------------------------
   Claim C7: check_winner
   --------------------------------------------------------------- -/

/-- Claim C7: `check_winner s m` is true exactly when one of the eight
canonical lines (three rows, three columns, two diagonals) is filled with
`m`, and it is false whenever fewer than 3 cells of the state hold `m`. -/
theorem check_winner_spec (s : String) (m : Char) (h9 : s.length = 9)
    (hm : m = 'X' ∨ m = 'O') :
    (check_winner s m = true ↔
      (cellAt s 0 = m ∧ cellAt s 1 = m ∧ cellAt s 2 = m) ∨
      (cellAt s 3 = m ∧ cellAt s 4 = m ∧ cellAt s 5 = m) ∨
      (cellAt s 6 = m ∧ cellAt s 7 = m ∧ cellAt s 8 = m) ∨
      (cellAt s 0 = m ∧ cellAt s 3 = m ∧ cellAt s 6 = m) ∨
      (cellAt s 1 = m ∧ cellAt s 4 = m ∧ cellAt s 7 = m) ∨
      (cellAt s 2 = m ∧ cellAt s 5 = m ∧ cellAt s 8 = m) ∨
      (cellAt s 0 = m ∧ cellAt s 4 = m ∧ cellAt s 8 = m) ∨
      (cellAt s 2 = m ∧ cellAt s 4 = m ∧ cellAt s 6 = m)) ∧
    (s.data.count m < 3 → check_winner s m = false) := by
  have hm' : m ≠ ' ' := by rcases hm with rfl | rfl <;> decide
  have hiff : check_winner s m = true ↔
      (cellAt s 0 = m ∧ cellAt s 1 = m ∧ cellAt s 2 = m) ∨
      (cellAt s 3 = m ∧ cellAt s 4 = m ∧ cellAt s 5 = m) ∨
      (cellAt s 6 = m ∧ cellAt s 7 = m ∧ cellAt s 8 = m) ∨
      (cellAt s 0 = m ∧ cellAt s 3 = m ∧ cellAt s 6 = m) ∨
      (cellAt s 1 = m ∧ cellAt s 4 = m ∧ cellAt s 7 = m) ∨
      (cellAt s 2 = m ∧ cellAt s 5 = m ∧ cellAt s 8 = m) ∨
      (cellAt s 0 = m ∧ cellAt s 4 = m ∧ cellAt s 8 = m) ∨
      (cellAt s 2 = m ∧ cellAt s 4 = m ∧ cellAt s 6 = m) := by
    simp [check_winner, wins, List.any_cons, List.any_nil, and_assoc]
  refine ⟨hiff, ?_⟩
  intro hcount
  by_contra hne
  have htrue : check_winner s m = true := by
    cases hval : check_winner s m with
    | false => exact absurd hval hne
    | true => rfl
  have hnotle := not_le.2 hcount
  rcases hiff.1 htrue with ⟨h1, h2, h3⟩ | ⟨h1, h2, h3⟩ | ⟨h1, h2, h3⟩ | ⟨h1, h2, h3⟩ |
    ⟨h1, h2, h3⟩ | ⟨h1, h2, h3⟩ | ⟨h1, h2, h3⟩ | ⟨h1, h2, h3⟩
  · exact hnotle (three_cells_count hm' (by omega) (by omega) h1 h2 h3)
  · exact hnotle (three_cells_count hm' (by omega) (by omega) h1 h2 h3)
  · exact hnotle (three_cells_count hm' (by omega) (by omega) h1 h2 h3)
  · exact hnotle (three_cells_count hm' (by omega) (by omega) h1 h2 h3)
  · exact hnotle (three_cells_count hm' (by omega) (by omega) h1 h2 h3)
  · exact hnotle (three_cells_count hm' (by omega) (by omega) h1 h2 h3)
  · exact hnotle (three_cells_count hm' (by omega) (by omega) h1 h2 h3)
  · exact hnotle (three_cells_count hm' (by omega) (by omega) h1 h2 h3)

/-- Witness for C7 at the spec's end-to-end scenario 2, `"XXXOO    "`. -/
theorem check_winner_spec_witness :
    "XXXOO    ".length = 9 ∧ ('X' = 'X' ∨ 'X' = 'O') ∧
      check_winner "XXXOO    " 'X' = true :=
  ⟨by decide, Or.inl rfl,
    (check_winner_spec "XXXOO    " 'X' (by decide) (Or.inl rfl)).1.mpr (by decide)⟩

/- ---------------------------------------------------------------
   Claims C8 and C3: next_state
   --------------------------------------------------------------- -/

theorem next_state_cells (s : String) (a : ℤ) (m : Char) (h9 : s.length = 9)
    (h0 : 0 ≤ a) (h8 : a < 9) :
    cellAt (next_state s a m) a.toNat = m ∧
      ∀ j : ℕ, j < 9 → j ≠ a.toNat → cellAt (next_state s a m) j = cellAt s j := by
  have hlen : s.data.length = 9 := h9
  have hlt : a.toNat < s.data.length := by omega
  have hdata : (next_state s a m).data = s.data.set a.toNat m := rfl
  constructor
  · rw [cellAt, hdata, List.getD_eq_getElem?_getD, List.getElem?_set_self hlt]
    rfl
  · intro j _ hj
    rw [cellAt, hdata, List.getD_eq_getElem?_getD,
      List.getElem?_set_ne (fun h => hj h.symm), cellAt, List.getD_eq_getElem?_getD]

/-- Claim C8: applying a move to an Empty cell writes the mark there (the cell
is no longer Empty) and leaves every other cell unchanged. -/
theorem next_state_frame (s : String) (a : ℤ) (m : Char) (h9 : s.length = 9)
    (h0 : 0 ≤ a) (h8 : a < 9) (hemp : cellAt s a.toNat = ' ')
    (hm : m = 'X' ∨ m = 'O') :
    cellAt (next_state s a m) a.toNat = m ∧
      cellAt (next_state s a m) a.toNat ≠ ' ' ∧
      ∀ j : ℕ, j < 9 → j ≠ a.toNat → cellAt (next_state s a m) j = cellAt s j := by
  rcases next_state_cells s a m h9 h0 h8 with ⟨h1, h2⟩
  refine ⟨h1, ?_, h2⟩
  rw [h1]
  rcases hm with rfl | rfl <;> decide

/-- Witness for C8: playing 'X' into cell 4 of the empty board. -/
theorem next_state_frame_witness :
    initial_state.length = 9 ∧ (0 : ℤ) ≤ 4 ∧ (4 : ℤ) < 9 ∧
      cellAt initial_state 4 = ' ' ∧ ('X' = 'X' ∨ 'X' = 'O') ∧
      cellAt (next_state initial_state 4 'X') 4 = 'X' :=
  ⟨by decide, by decide, by decide, by decide, Or.inl rfl,
    (next_state_frame initial_state 4 'X' (by decide) (by decide) (by decide)
      (by decide) (Or.inl rfl)).1⟩

/-- Counterexample for C3: `next_state` applies no emptiness guard. Writing
'O' into cell 0 of `"X        "`, whose cell 0 is occupied, does not fail:
it silently returns the overwritten state `"O        "`. -/
theorem next_state_overwrite_counterexample :
    cellAt "X        " 0 ≠ ' ' ∧ next_state "X        " 0 'O' = "O        " := by
  constructor
  · decide
  · rfl

/-- Claim C3 (amended): `next_state` never fails. For every 9-character state
and action in [0,8] — Empty or not — it returns the state with the action's
cell set to the mark and all other cells unchanged; an occupied cell is
silently overwritten rather than rejected with `InvalidMoveError`. -/
theorem next_state_total (s : String) (a : ℤ) (m : Char) (h9 : s.length = 9)
    (h0 : 0 ≤ a) (h8 : a < 9) :
    cellAt (next_state s a m) a.toNat = m ∧
      ∀ j : ℕ, j < 9 → j ≠ a.toNat → cellAt (next_state s a m) j = cellAt s j :=
  next_state_cells s a m h9 h0 h8

/-- Witness for the amended C3: overwriting the occupied cell 0. -/
theorem next_state_total_witness :
    ("X        " : String).length = 9 ∧ (0 : ℤ) ≤ 0 ∧ (0 : ℤ) < 9 ∧
      cellAt (next_state "X        " 0 'O') 0 = 'O' :=
  ⟨by decide, by decide, by decide,
    (next_state_total "X        " 0 'O' (by decide) (by decide) (by decide)).1⟩

/- ---------------------------------------------------------------
   Claims C1 and C10: the Q-learning update rule
   --------------------------------------------------------------- -/

/-- Claim C1: the training update sets the (s, a) entry to
`get(s,a) + ALPHA * (r + GAMMA * max_next - get(s,a))`, where `max_next` is
the maximum stored value over the legal actions of the successor state and
0 when the successor has none, with ALPHA = 0.5 and GAMMA = 0.9. -/
theorem update_q_value_spec (Q : QTable) (s : String) (a : ℤ) (r : ℚ)
    (s2 : String) (ha : a ∈ available_actions s) :
    ∃ M : ℚ,
      get_q_value (update_q_value Q s a r s2) s a =
        get_q_value Q s a + ALPHA * (r + GAMMA * M - get_q_value Q s a) ∧
      (available_actions s2 = [] → M = 0) ∧
      (available_actions s2 ≠ [] →
        M ∈ (available_actions s2).map (get_q_value Q s2) ∧
          ∀ v ∈ (available_actions s2).map (get_q_value Q s2), v ≤ M) ∧
      ALPHA = 1 / 2 ∧ GAMMA = 9 / 10 := by
  refine ⟨if (available_actions s2).isEmpty then 0.0
      else pyMaxList ((available_actions s2).map fun a => get_q_value Q s2 a),
    ?_, ?_, ?_, by norm_num [ALPHA], by norm_num [GAMMA]⟩
  · show get_q_value (dset Q (s, a) _) s a = _
    rw [get_q_value, dget?_dset_self, Option.getD_some]
  · intro h
    rw [h]
    norm_num
  · intro h
    have hmapne : (available_actions s2).map (get_q_value Q s2) ≠ [] := by
      simpa using h
    have hempty : (available_actions s2).isEmpty = false := by
      cases hne : available_actions s2 with
      | nil => exact absurd hne h
      | cons x t => rfl
    rw [if_neg (by rw [hempty]; exact Bool.false_ne_true)]
    exact ⟨pyMaxList_mem _ hmapne, le_pyMaxList _⟩

/-- Witness for C1 at a concrete transition. -/
theorem update_q_value_spec_witness :
    (4 : ℤ) ∈ available_actions initial_state ∧
      ∃ M : ℚ,
        get_q_value (update_q_value [] initial_state 4 1 "X        ") initial_state 4 =
          get_q_value [] initial_state 4 +
            ALPHA * (1 + GAMMA * M - get_q_value [] initial_state 4) ∧
        (available_actions "X        " = [] → M = 0) ∧
        (available_actions "X        " ≠ [] →
          M ∈ (available_actions "X        ").map (get_q_value [] "X        ") ∧
            ∀ v ∈ (available_actions "X        ").map (get_q_value [] "X        "),
              v ≤ M) ∧
        ALPHA = 1 / 2 ∧ GAMMA = 9 / 10 :=
  ⟨by decide, update_q_value_spec [] initial_state 4 1 "X        " (by decide)⟩

/-- Claim C10: `update_q_value` writes only the (old_state, action) entry;
every other entry — both its presence in the table and the value read
through the defaulting getter — is unchanged. -/
theorem update_q_value_frame (Q : QTable) (s : String) (a : ℤ) (r : ℚ)
    (s2 s3 : String) (a3 : ℤ) (hne : (s3, a3) ≠ (s, a)) :
    dget? (update_q_value Q s a r s2) (s3, a3) = dget? Q (s3, a3) ∧
      get_q_value (update_q_value Q s a r s2) s3 a3 = get_q_value Q s3 a3 := by
  have h : dget? (update_q_value Q s a r s2) (s3, a3) = dget? Q (s3, a3) :=
    dget?_dset_ne Q (s, a) (s3, a3) _ hne
  exact ⟨h, by rw [get_q_value, get_q_value, h]⟩

/-- Witness for C10 at a concrete distinct key. -/
theorem update_q_value_frame_witness :
    (("X        ", (0 : ℤ)) ≠ (initial_state, (4 : ℤ))) ∧
      dget? (update_q_value [] initial_state 4 1 "X        ") ("X        ", 0) =
        dget? ([] : QTable) ("X        ", 0) :=
  ⟨by decide,
    (update_q_value_frame [] initial_state 4 1 "X        " "X        " 0
      (by decide)).1⟩

/- ---------------------------------------------------------------
   Claim C2: choose_best_action (the interactive advisor)
   --------------------------------------------------------------- -/

theorem choose_best_action_eq (Q : QTable) (s : String) (k : ℕ) :
    choose_best_action Q s k =
      if (available_actions s).isEmpty then none
      else if ((available_actions s).map fun a => (get_q_value Q s a, a)).all
          (fun qv => qv.1 == 0.0) then
        some ((available_actions s).getD (k % (available_actions s).length) 0)
      else
        (pyMaxBy ((available_actions s).map fun a => (get_q_value Q s a, a))
          fun x => x.1).map fun x => x.2 := rfl

theorem pyFold_map {α β : Type} (g : β → ℚ) (f : α → β) (x : α) (xs : List α) :
    pyFold g (f x) (xs.map f) = f (pyFold (fun a => g (f a)) x xs) := by
  induction xs generalizing x with
  | nil => rfl
  | cons y ys ih =>
    simp only [List.map_cons, pyFold, List.foldl_cons]
    by_cases hgt : g (f y) > g (f x)
    · rw [if_pos hgt, if_pos hgt]
      exact ih y
    · rw [if_neg hgt, if_neg hgt]
      exact ih x

theorem choose_best_action_isSome (Q : QTable) (s : String) (k : ℕ)
    (h : available_actions s ≠ []) :
    ∃ b, choose_best_action Q s k = some b := by
  rw [choose_best_action_eq]
  rcases hval : available_actions s with _ | ⟨v0, vrest⟩
  · exact absurd hval h
  · rw [if_neg (by simp)]
    by_cases hall : (((v0 :: vrest).map fun a => (get_q_value Q s a, a)).all
        fun qv => qv.1 == 0.0) = true
    · rw [if_pos hall]
      exact ⟨_, rfl⟩
    · rw [if_neg hall]
      simp only [List.map_cons, pyMaxBy_cons, Option.map_some]
      exact ⟨_, rfl⟩

theorem choose_best_action_informed (Q : QTable) (s : String) (k : ℕ)
    (hnz : ∃ x ∈ available_actions s, get_q_value Q s x ≠ 0) :
    ∃ b ∈ available_actions s, choose_best_action Q s k = some b ∧
      (∀ x ∈ available_actions s, get_q_value Q s x ≤ get_q_value Q s b) ∧
      ∀ x ∈ available_actions s,
        get_q_value Q s x = get_q_value Q s b → b ≤ x := by
  rcases hnz with ⟨x0, hx0, hq0⟩
  have hne : available_actions s ≠ [] := List.ne_nil_of_mem hx0
  have hall : (((available_actions s).map fun a => (get_q_value Q s a, a)).all
      fun qv => qv.1 == 0.0) = false := by
    cases hcase : ((available_actions s).map fun a => (get_q_value Q s a, a)).all
        fun qv => qv.1 == 0.0 with
    | false => rfl
    | true =>
      exfalso
      have hx0eq := List.all_eq_true.1 hcase (get_q_value Q s x0, x0)
        (List.mem_map_of_mem _ hx0)
      simp only [beq_iff_eq] at hx0eq
      exact hq0 (by rw [hx0eq]; norm_num)
  rcases hval : available_actions s with _ | ⟨v0, vrest⟩
  · exact absurd hval hne
  · have hsorted : (v0 :: vrest).Pairwise (· < ·) := by
      rw [← hval]; exact available_actions_sorted s
    have hstep : choose_best_action Q s k =
        some (pyFold (fun a => get_q_value Q s a) v0 vrest) := by
      rw [choose_best_action_eq, hval]
      rw [if_neg (by simp)]
      rw [hval] at hall
      rw [if_neg (by rw [hall]; exact Bool.false_ne_true)]
      simp only [List.map_cons, pyMaxBy_cons, Option.map_some]
      rw [show ((get_q_value Q s v0, v0) : ℚ × ℤ) =
        (fun a => (get_q_value Q s a, a)) v0 from rfl,
        pyFold_map (fun p => p.1) (fun a => (get_q_value Q s a, a)) v0 vrest]
      rfl
    set b := pyFold (fun a => get_q_value Q s a) v0 vrest with hbdef
    have hspec := pyFold_spec (fun a => get_q_value Q s a) vrest v0
    have hbmem : b ∈ v0 :: vrest := by
      rcases hspec.1 with h | h
      · rw [← hbdef] at h; rw [h]; exact List.mem_cons_self _ _
      · exact List.mem_cons_of_mem _ h.1
    refine ⟨b, hbmem, hstep, ?_, ?_⟩
    · intro x hx
      rcases List.mem_cons.1 hx with rfl | hx
      · rcases hspec.1 with h | h
        · rw [hbdef, h]
        · exact le_of_lt h.2
      · exact hspec.2 x hx
    · intro x hx hqx
      exact pyMaxBy_tiebreak (fun a => get_q_value Q s a) vrest v0 hsorted x hx hqx

/-- Claim C2: the advisor returns `None` exactly on a full board; on an
uninformed state (all stored values exactly 0) it draws uniformly among the
legal actions (it returns the oracle-selected legal action and every legal
action is selected by some draw); otherwise it returns the legal action of
maximal stored value, ties resolved to the lowest index; and on the empty
board with only action 4 valued 0.9 it deterministically returns 4. -/
theorem choose_best_action_spec (Q : QTable) (s : String) (k : ℕ) :
    (choose_best_action Q s k = none ↔ ' ' ∉ s.data) ∧
    (available_actions s ≠ [] →
      (∀ x ∈ available_actions s, get_q_value Q s x = 0) →
      (∃ a ∈ available_actions s, choose_best_action Q s k = some a) ∧
        ∀ a ∈ available_actions s, ∃ j : ℕ, choose_best_action Q s j = some a) ∧
    ((∃ x ∈ available_actions s, get_q_value Q s x ≠ 0) →
      ∃ b ∈ available_actions s, choose_best_action Q s k = some b ∧
        (∀ x ∈ available_actions s, get_q_value Q s x ≤ get_q_value Q s b) ∧
        ∀ x ∈ available_actions s,
          get_q_value Q s x = get_q_value Q s b → b ≤ x) ∧
    (∀ j : ℕ,
      choose_best_action [(("         ", (4 : ℤ)), (9 / 10 : ℚ))] "         " j =
        some 4) := by
  refine ⟨?_, ?_, fun hnz => choose_best_action_informed Q s k hnz, ?_⟩
  case refine_3 =>
    intro j
    have hq4 : get_q_value [(("         ", (4 : ℤ)), (9 / 10 : ℚ))] "         " 4 =
        9 / 10 := rfl
    have hnz : ∃ x ∈ available_actions "         ",
        get_q_value [(("         ", (4 : ℤ)), (9 / 10 : ℚ))] "         " x ≠ 0 := by
      refine ⟨4, by decide, ?_⟩
      rw [hq4]
      norm_num
    obtain ⟨b, hbmem, hres, hmax, _⟩ :=
      choose_best_action_informed [(("         ", (4 : ℤ)), (9 / 10 : ℚ))]
        "         " j hnz
    have hb4 : b = 4 := by
      by_contra hb
      have hne2 : (("         ", (4 : ℤ)) : String × ℤ) ≠ ("         ", b) := by
        simp only [Ne, Prod.mk.injEq, true_and]
        intro h4b
        exact hb h4b.symm
      have hgb : get_q_value [(("         ", (4 : ℤ)), (9 / 10 : ℚ))] "         " b
          = 0 := by
        rw [get_q_value, dget?, if_neg hne2, dget?_nil]
        norm_num
      have hle := hmax 4 (by decide)
      rw [hq4, hgb] at hle
      norm_num at hle
    rw [hb4] at hres
    exact hres
  · constructor
    · intro hnone
      by_contra hsp
      have hne : available_actions s ≠ [] := by
        intro h0
        exact (available_actions_eq_nil_iff.1 h0) hsp
      rcases choose_best_action_isSome Q s k hne with ⟨b, hb⟩
      rw [hnone] at hb
      exact Option.noConfusion hb
    · intro hsp
      have h0 : available_actions s = [] := by
        rcases hval : available_actions s with _ | ⟨v0, vrest⟩
        · rfl
        · exfalso
          have hv0 : v0 ∈ available_actions s := by
            rw [hval]; exact List.mem_cons_self _ _
          rcases mem_available_actions.1 hv0 with ⟨i, _, hi⟩
          exact hsp (List.getElem?_mem hi)
      rw [choose_best_action_eq, h0]
      rfl
  · intro hne hzero
    have hall : (((available_actions s).map fun a => (get_q_value Q s a, a)).all
        fun qv => qv.1 == 0.0) = true := by
      rw [List.all_eq_true]
      intro qv hqv
      rcases List.mem_map.1 hqv with ⟨x, hx, rfl⟩
      simp only [beq_iff_eq]
      rw [hzero x hx]
      norm_num
    have hlen : 0 < (available_actions s).length :=
      List.length_pos_of_ne_nil hne
    have hempty : (available_actions s).isEmpty = false := by
      cases hval : available_actions s with
      | nil => exact absurd hval hne
      | cons x t => rfl
    have hres : ∀ j : ℕ, choose_best_action Q s j =
        some ((available_actions s).getD (j % (available_actions s).length) 0) := by
      intro j
      rw [choose_best_action_eq, if_neg (by rw [hempty]; exact Bool.false_ne_true),
        if_pos hall]
    constructor
    · refine ⟨(available_actions s).getD (k % (available_actions s).length) 0,
        ?_, hres k⟩
      have hk : k % (available_actions s).length < (available_actions s).length :=
        Nat.mod_lt _ hlen
      rw [List.getD_eq_getElem?_getD, List.getElem?_eq_getElem hk]
      exact List.getElem_mem hk
    · intro a ha
      rcases List.mem_iff_getElem.1 ha with ⟨i, hi, hia⟩
      refine ⟨i, ?_⟩
      rw [hres i, List.getD_eq_getElem?_getD, Nat.mod_eq_of_lt hi,
        List.getElem?_eq_getElem hi, hia]
      rfl

/-- Witness for C2: a full board gives `None`; an informed state returns the
maximizer. -/
theorem choose_best_action_spec_witness :
    choose_best_action [] "XOXOXOXOX" 0 = none ∧
      choose_best_action [(("         ", (4 : ℤ)), (9 / 10 : ℚ))] "         " 7 =
        some 4 :=
  ⟨(choose_best_action_spec [] "XOXOXOXOX" 0).1.mpr (by decide),
    (choose_best_action_spec [] "         " 0).2.2.2 7⟩

theorem best_action_mem {Q : QTable} {s : String} {a : ℤ}
    (h : best_action Q s = some a) : a ∈ available_actions s := by
  rw [best_action] at h
  rcases hval : available_actions s with _ | ⟨v0, vrest⟩
  · rw [hval] at h
    simp at h
  · rw [hval] at h
    rw [if_neg (by simp)] at h
    rw [pyMaxBy_cons] at h
    have hfold := (pyFold_spec (fun x => get_q_value Q s x) vrest v0).1
    rcases Option.some.inj h with rfl
    rcases hfold with h1 | h1
    · rw [h1]; exact List.mem_cons_self _ _
    · exact List.mem_cons_of_mem _ h1.1

theorem epsilon_greedy_mem {Q : QTable} {s : String} {epsilon r : ℚ} {k : ℕ}
    {a : ℤ} (h : epsilon_greedy_action Q s epsilon r k = some a) :
    a ∈ available_actions s := by
  rw [epsilon_greedy_action] at h
  rcases hval : available_actions s with _ | ⟨v0, vrest⟩
  · rw [hval] at h
    simp at h
  · rw [hval] at h
    rw [if_neg (by simp)] at h
    by_cases hr : r < epsilon
    · rw [if_pos hr] at h
      rcases Option.some.inj h with rfl
      have hlen : 0 < (v0 :: vrest).length := by simp
      have hk : k % (v0 :: vrest).length < (v0 :: vrest).length :=
        Nat.mod_lt _ hlen
      rw [List.getD_eq_getElem?_getD, List.getElem?_eq_getElem hk]
      exact List.getElem_mem hk
    · rw [if_neg hr] at h
      exact hval ▸ best_action_mem h

theorem next_state_count {s : String} {a : ℤ} {c : Char} (hc : c ≠ ' ')
    (ha : a ∈ available_actions s) :
    (next_state s a c).data.count ' ' + 1 = s.data.count ' ' := by
  rcases mem_available_actions.1 ha with ⟨i, rfl, hi⟩
  rcases List.getElem?_eq_some_iff.1 hi with ⟨hlt, hval⟩
  have hdata : (next_state s (i : ℤ) c).data = s.data.set i c := by
    rw [next_state]
    rw [Int.toNat_natCast]
  rw [hdata, List.count_set c ' ' s.data i hlt, hval]
  have hpos : 0 < s.data.count ' ' :=
    List.count_pos_iff.2 (List.getElem?_mem hi)
  have hcf : (c == ' ') = false := by
    cases hcc : c == ' ' with
    | false => rfl
    | true => exact absurd (by simpa using hcc) hc
  rw [hcf]
  simp
  omega

theorem play_loop_some (oracle : ℕ → ℚ × ℕ) (epsilon : ℚ) :
    ∀ (fuel step : ℕ) (Q : QTable) (s : String) (cur oth : Char)
      (ls : Char → Option String) (la : Char → Option ℤ),
      s.data.count ' ' < fuel → cur ≠ ' ' → oth ≠ ' ' →
      ∃ r Q2, play_loop oracle epsilon fuel step Q s cur oth ls la =
        some (r, Q2) ∧ (r = 1 ∨ r = -1 ∨ r = 0) := by
  intro fuel
  induction fuel with
  | zero => intro step Q s cur oth ls la hcount _ _; omega
  | succ n ih =>
    intro step Q s cur oth ls la hcount hcur hoth
    rw [play_loop]
    cases hact : epsilon_greedy_action Q s epsilon (oracle step).1
        (oracle step).2 with
    | none => exact ⟨0, Q, rfl, Or.inr (Or.inr rfl)⟩
    | some action =>
      have hmem := epsilon_greedy_mem hact
      have hdec := next_state_count hcur hmem
      dsimp only
      by_cases hwin : check_winner (next_state s action cur) cur = true
      · rw [if_pos hwin]
        refine ⟨if cur = 'X' then 1 else -1, _, rfl, ?_⟩
        by_cases hx : cur = 'X'
        · rw [if_pos hx]; exact Or.inl rfl
        · rw [if_neg hx]; exact Or.inr (Or.inl rfl)
      · rw [if_neg hwin]
        by_cases hdraw : is_draw (next_state s action cur) = true
        · rw [if_pos hdraw]
          exact ⟨0, _, rfl, Or.inr (Or.inr rfl)⟩
        · rw [if_neg hdraw]
          exact ih (step + 1) _ _ oth cur _ _ (by omega) hoth hcur

/-- Claim C9: `play_one_game` terminates for every exploration rate, every
table and every randomness oracle — the board has 9 cells and every
iteration fills one, so 10 fuel is never exhausted — and its result is
+1 (X wins), -1 (O wins) or 0 (draw). -/
theorem play_one_game_terminates (oracle : ℕ → ℚ × ℕ) (Q : QTable)
    (epsilon : ℚ) :
    ∃ r Q2, play_one_game oracle Q epsilon = some (r, Q2) ∧
      (r = 1 ∨ r = -1 ∨ r = 0) := by
  have h9 : initial_state.data.count ' ' = 9 := by decide
  exact play_loop_some oracle epsilon 10 0 Q initial_state 'X' 'O'
    (fun _ => none) (fun _ => none) (by omega) (by decide) (by decide)

theorem decay_pos : 0 < decay := by
  rw [decay, if_pos (by norm_num [EPSILON_START])]
  exact Real.rpow_pos_of_pos (by norm_num [EPSILON_END, EPSILON_START]) _

theorem decay_le_one : decay ≤ 1 := by
  rw [decay, if_pos (by norm_num [EPSILON_START])]
  exact Real.rpow_le_one (by norm_num [EPSILON_END, EPSILON_START])
    (by norm_num [EPSILON_END, EPSILON_START]) (by positivity)

theorem epsSeq_lower (n : ℕ) : EPSILON_END ≤ epsSeq n := by
  induction n with
  | zero =>
    rw [epsSeq]
    norm_num [EPSILON_END, EPSILON_START]
  | succ k ih =>
    rw [epsSeq]
    exact le_max_left _ _

/-- Claim C4: epsilon starts at EPSILON_START = 1.0, each episode updates it
to `max(EPSILON_END, epsilon * decay)` with
`decay = (EPSILON_END/EPSILON_START)^(1/EPISODES)`, and consequently the
per-episode epsilon is non-increasing and never drops below
EPSILON_END = 0.01. -/
theorem epsilon_schedule (n : ℕ) :
    epsSeq 0 = EPSILON_START ∧ EPSILON_END ≤ epsSeq n ∧
      epsSeq (n + 1) ≤ epsSeq n := by
  refine ⟨rfl, epsSeq_lower n, ?_⟩
  rw [epsSeq]
  refine max_le ?_ ?_
  · exact epsSeq_lower n
  · have h0 : 0 ≤ epsSeq n :=
      le_trans (by norm_num [EPSILON_END]) (epsSeq_lower n)
    exact mul_le_of_le_one_right h0 decay_le_one

/- ---------------------------------------------------------------
   Lemmas about the load loops (claim C5)
   --------------------------------------------------------------- -/

theorem dget?_eq_none {κ β : Type} [DecidableEq κ] {l : List (κ × β)} {k : κ}
    (h : k ∉ dkeys l) : dget? l k = none := by
  induction l with
  | nil => rfl
  | cons e t ih =>
    have h1 : ¬ (e.1 = k) := fun he => by
      refine h ?_
      rw [dkeys, List.map_cons, he]
      exact List.mem_cons_self _ _
    have h2 : k ∉ dkeys t := fun hm => by
      refine h ?_
      rw [dkeys, List.map_cons]
      exact List.mem_cons_of_mem _ hm
    rw [dget?, if_neg h1]
    exact ih h2

theorem dget?_mem {κ β : Type} [DecidableEq κ] {l : List (κ × β)} {k : κ}
    {v : β} (h : dget? l k = some v) : (k, v) ∈ l := by
  induction l with
  | nil => simp [dget?] at h
  | cons e t ih =>
    rw [dget?] at h
    by_cases he : e.1 = k
    · rw [if_pos he] at h
      rcases Option.some.inj h with rfl
      rw [← he]
      exact List.mem_cons_self _ _
    · rw [if_neg he] at h
      exact List.mem_cons_of_mem _ (ih h)

theorem foldl_inner_none (state : String) (il : List (String × Json)) :
    il.foldl (inner_step state) none = none := by
  induction il with
  | nil => rfl
  | cons e rest ih =>
    rw [List.foldl_cons]
    exact ih

theorem decode_inner_nil (state : String) (acc : LoadedTable) :
    decode_inner state [] acc = some acc := rfl

theorem decode_inner_cons (state : String) (e : String × Json)
    (rest : List (String × Json)) (acc : LoadedTable) :
    decode_inner state (e :: rest) acc =
      match pyIntOfString e.1 with
      | some b => decode_inner state rest (dset acc (state, b) e.2)
      | none => none := by
  rw [decode_inner, List.foldl_cons]
  cases hp : pyIntOfString e.1 with
  | some b =>
    have hs : inner_step state (some acc) e =
        some (dset acc (state, b) e.2) := by
      rw [inner_step]
      simp [hp]
    rw [hs]
    rfl
  | none =>
    have hs : inner_step state (some acc) e = none := by
      rw [inner_step]
      simp [hp]
    rw [hs]
    exact foldl_inner_none state rest

theorem decode_inner_isSome (state : String) :
    ∀ (il : List (String × Json)) (acc : LoadedTable),
      (decode_inner state il acc).isSome =
        il.all fun q => (pyIntOfString q.1).isSome := by
  intro il
  induction il with
  | nil => intro acc; rfl
  | cons e rest ih =>
    intro acc
    rw [decode_inner_cons, List.all_cons]
    cases hp : pyIntOfString e.1 with
    | some b =>
      rw [ih]
      simp [hp]
    | none => simp [hp]

theorem outer_step_some (acc : LoadedTable) (e : String × Json) :
    outer_step (some acc) e =
      match e.2 with
      | Json.obj il => decode_inner e.1 il acc
      | _ => none := rfl

theorem foldl_outer_none (l : List (String × Json)) :
    l.foldl outer_step none = none := by
  induction l with
  | nil => rfl
  | cons e rest ih =>
    rw [List.foldl_cons]
    exact ih

theorem outer_foldl_isSome :
    ∀ (l : List (String × Json)) (acc : LoadedTable),
      (l.foldl outer_step (some acc)).isSome =
        l.all fun e =>
          match e.2 with
          | Json.obj il => il.all fun q => (pyIntOfString q.1).isSome
          | _ => false := by
  intro l
  induction l with
  | nil => intro acc; rfl
  | cons e rest ih =>
    intro acc
    rw [List.foldl_cons, outer_step_some, List.all_cons]
    cases he : e.2
    case obj il =>
      dsimp only
      cases hd : decode_inner e.1 il acc with
      | some A1 =>
        rw [ih]
        have hall : (il.all fun q => (pyIntOfString q.1).isSome) = true := by
          have hiso := decode_inner_isSome e.1 il acc
          rw [hd] at hiso
          exact hiso.symm
        rw [hall]
        simp
      | none =>
        rw [foldl_outer_none]
        have hall : (il.all fun q => (pyIntOfString q.1).isSome) = false := by
          have hiso := decode_inner_isSome e.1 il acc
          rw [hd] at hiso
          exact hiso.symm
        rw [hall]
        simp
    all_goals
      dsimp only
      rw [foldl_outer_none]
      simp

theorem load_ok_iff_well_formed (j : Json) :
    load_ok (FileData.json j) = well_formed_q_json j := by
  cases j
  case obj l =>
    rw [load_ok]
    have hfold : decode_outer l = l.foldl outer_step (some []) := rfl
    cases hd : decode_outer l with
    | some T =>
      have hiso := outer_foldl_isSome l []
      rw [← hfold, hd] at hiso
      rw [load_q_table]
      rw [hd]
      rw [well_formed_q_json, ← hiso]
      rfl
    | none =>
      have hiso := outer_foldl_isSome l []
      rw [← hfold, hd] at hiso
      rw [load_q_table]
      rw [hd]
      rw [well_formed_q_json, ← hiso]
      rfl
  all_goals rfl

/-- Counterexample for C5: a file that exists and is structurally malformed
per the spec's persisted format (a non-numeric leaf value) which the load
code nevertheless accepts without any error. -/
theorem load_q_table_counterexample :
    conforms_spec_format
        (Json.obj [("         ", Json.obj [("0", Json.str "oops")])]) = false ∧
      load_ok (FileData.json
        (Json.obj [("         ", Json.obj [("0", Json.str "oops")])])) = true :=
  ⟨rfl, rfl⟩

/-- Claim C5 (amended): a missing file is not an error and yields the empty
table; unparseable text fails with `CorruptDataError`; a parsed file fails
exactly when it is not an object of objects with integer-parseable inner
keys — leaf values and the key range are not inspected, so every
spec-format-conformant file loads, but some files violating the spec's
format (for example with non-numeric leaf values) also load without
error. -/
theorem load_q_table_spec :
    load_q_table FileData.missing = Except.ok [] ∧
      load_ok FileData.invalidText = false ∧
      (∀ j : Json, load_ok (FileData.json j) = well_formed_q_json j) ∧
      ∀ j : Json, conforms_spec_format j = true →
        load_ok (FileData.json j) = true := by
  refine ⟨rfl, rfl, load_ok_iff_well_formed, ?_⟩
  intro j hc
  rw [load_ok_iff_well_formed]
  cases j
  case obj l =>
    rw [conforms_spec_format, List.all_eq_true] at hc
    rw [well_formed_q_json, List.all_eq_true]
    intro e he
    have hce := hc e he
    rw [Bool.and_eq_true] at hce
    cases he2 : e.2
    case obj il =>
      rw [he2] at hce
      dsimp only at hce
      have hil := hce.2
      rw [List.all_eq_true] at hil
      rw [List.all_eq_true]
      intro q hq
      have hq2 := hil q hq
      rw [Bool.and_eq_true] at hq2
      have hmem : q.1 ∈ ["0", "1", "2", "3", "4", "5", "6", "7", "8"] := by
        have hc1 := hq2.1
        simpa using hc1
      simp only [List.mem_cons, List.not_mem_nil, or_false] at hmem
      rcases hmem with h | h | h | h | h | h | h | h | h <;> rw [h] <;> decide
    all_goals
      rw [he2] at hce
      dsimp only at hce
      exact absurd hce.2 Bool.false_ne_true
  all_goals exact absurd hc Bool.false_ne_true

/-- Witness for the amended C5: a spec-conformant file loads without
error. -/
theorem load_q_table_spec_witness :
    conforms_spec_format
        (Json.obj [("         ", Json.obj [("4", Json.num (9 / 10))])]) = true ∧
      load_ok (FileData.json
        (Json.obj [("         ", Json.obj [("4", Json.num (9 / 10))])])) =
        true :=
  ⟨rfl, load_q_table_spec.2.2.2 _ rfl⟩

theorem pyInt_toString_range (b : ℤ) (h0 : 0 ≤ b) (h8 : b ≤ 8) :
    pyIntOfString (toString b) = some b := by
  interval_cases b <;> decide

theorem toString_inj_range (b a : ℤ) (hb0 : 0 ≤ b) (hb8 : b ≤ 8)
    (ha0 : 0 ≤ a) (ha8 : a ≤ 8) (h : toString b = toString a) : b = a := by
  have h1 := pyInt_toString_range b hb0 hb8
  rw [h, pyInt_toString_range a ha0 ha8] at h1
  exact (Option.some.inj h1).symm

theorem save_step_lookup2 (qd : List (String × List (String × ℚ)))
    (e : (String × ℤ) × ℚ) (s t : String) :
    lookup2 (save_step qd e) s t =
      if e.1.1 = s ∧ toString e.1.2 = t then some e.2
      else lookup2 qd s t := by
  rw [save_step, lookup2]
  by_cases hs : e.1.1 = s
  · subst hs
    rw [dget?_dset_self, Option.some_bind]
    by_cases ht : toString e.1.2 = t
    · subst ht
      rw [dget?_dset_self, if_pos ⟨rfl, rfl⟩]
    · rw [dget?_dset_ne _ _ _ _ (fun hh => ht hh.symm),
        if_neg (fun hcon => ht hcon.2), lookup2]
      cases hq : dget? qd e.1.1 with
      | some il => rw [Option.getD_some, Option.some_bind]
      | none => rw [Option.getD_none, dget?_nil, Option.none_bind]
  · rw [dget?_dset_ne _ _ _ _ (fun hh => hs hh.symm),
      if_neg (fun hcon => hs hcon.1), lookup2]

theorem build_foldl_lookup2 :
    ∀ (Q : QTable) (qd : List (String × List (String × ℚ))) (s : String)
      (a : ℤ), (dkeys Q).Nodup → (∀ e ∈ Q, 0 ≤ e.1.2 ∧ e.1.2 ≤ 8) →
      0 ≤ a → a ≤ 8 →
      lookup2 (Q.foldl save_step qd) s (toString a) =
        match dget? Q (s, a) with
        | some v => some v
        | none => lookup2 qd s (toString a) := by
  intro Q
  induction Q with
  | nil => intro qd s a _ _ _ _; rfl
  | cons e rest ih =>
    intro qd s a hnd hrange h0 h8
    rw [List.foldl_cons]
    rw [dkeys, List.map_cons, List.nodup_cons] at hnd
    have hrest : ∀ x ∈ rest, 0 ≤ x.1.2 ∧ x.1.2 ≤ 8 :=
      fun x hx => hrange x (List.mem_cons_of_mem _ hx)
    rw [ih (save_step qd e) s a hnd.2 hrest h0 h8, dget?_cons]
    by_cases hkey : e.1 = (s, a)
    · rw [if_pos hkey]
      have hnone : dget? rest (s, a) = none := by
        apply dget?_eq_none
        rw [← hkey]
        exact hnd.1
      rw [hnone]
      show lookup2 (save_step qd e) s (toString a) = some e.2
      rw [save_step_lookup2,
        if_pos ⟨by rw [hkey], by rw [hkey]⟩]
    · rw [if_neg hkey]
      cases hr : dget? rest (s, a) with
      | some v => rfl
      | none =>
        show lookup2 (save_step qd e) s (toString a) =
          lookup2 qd s (toString a)
        rw [save_step_lookup2]
        rw [if_neg ?_]
        rintro ⟨hc1, hc2⟩
        have he8 := hrange e (List.mem_cons_self _ _)
        have hinj := toString_inj_range e.1.2 a he8.1 he8.2 h0 h8 hc2
        exact hkey (Prod.ext_iff.2 ⟨hc1, hinj⟩)

theorem build_lookup2 (Q : QTable) (s : String) (a : ℤ)
    (hnd : (dkeys Q).Nodup) (hrange : ∀ e ∈ Q, 0 ≤ e.1.2 ∧ e.1.2 ≤ 8)
    (h0 : 0 ≤ a) (h8 : a ≤ 8) :
    lookup2 (build_q_data Q) s (toString a) = dget? Q (s, a) := by
  rw [build_q_data, build_foldl_lookup2 Q [] s a hnd hrange h0 h8]
  cases dget? Q (s, a) with
  | some v => rfl
  | none => rfl

theorem save_step_inv (qd : List (String × List (String × ℚ)))
    (e : (String × ℤ) × ℚ) (he : 0 ≤ e.1.2 ∧ e.1.2 ≤ 8)
    (h : nested_inv qd) : nested_inv (save_step qd e) := by
  obtain ⟨h1, h2, h3⟩ := h
  have hinner0 : (dkeys ((dget? qd e.1.1).getD [])).Nodup := by
    cases hq : dget? qd e.1.1 with
    | none => simp [dkeys]
    | some il =>
      rw [Option.getD_some]
      exact h2 (e.1.1, il) (dget?_mem hq)
  have hinner0q : ∀ q ∈ (dget? qd e.1.1).getD [],
      ∃ b : ℤ, 0 ≤ b ∧ b ≤ 8 ∧ q.1 = toString b := by
    cases hq : dget? qd e.1.1 with
    | none => simp
    | some il =>
      rw [Option.getD_some]
      exact h3 (e.1.1, il) (dget?_mem hq)
  refine ⟨nodup_dkeys_dset _ _ _ h1, ?_, ?_⟩
  · intro p hp
    rcases mem_dset _ _ _ p hp with hp1 | hp1
    · exact h2 p hp1
    · rw [hp1]
      exact nodup_dkeys_dset _ _ _ hinner0
  · intro p hp q hq
    rcases mem_dset _ _ _ p hp with hp1 | hp1
    · exact h3 p hp1 q hq
    · rw [hp1] at hq
      rcases mem_dset _ _ _ q hq with hq1 | hq1
      · exact hinner0q q hq1
      · exact ⟨e.1.2, he.1, he.2, by rw [hq1]⟩

theorem build_q_data_inv (Q : QTable)
    (hrange : ∀ e ∈ Q, 0 ≤ e.1.2 ∧ e.1.2 ≤ 8) :
    nested_inv (build_q_data Q) := by
  rw [build_q_data]
  have hgen : ∀ (l : QTable) (qd : List (String × List (String × ℚ))),
      (∀ e ∈ l, 0 ≤ e.1.2 ∧ e.1.2 ≤ 8) → nested_inv qd →
      nested_inv (l.foldl save_step qd) := by
    intro l
    induction l with
    | nil => intro qd _ h; exact h
    | cons e rest ih =>
      intro qd hr h
      rw [List.foldl_cons]
      exact ih _ (fun x hx => hr x (List.mem_cons_of_mem _ hx))
        (save_step_inv qd e (hr e (List.mem_cons_self _ _)) h)
  exact hgen Q [] hrange ⟨List.nodup_nil, by simp, by simp⟩

theorem dget?_map_val {κ β γ : Type} [DecidableEq κ] (g : β → γ) :
    ∀ (l : List (κ × β)) (k : κ),
      dget? (l.map fun p => (p.1, g p.2)) k = (dget? l k).map g := by
  intro l
  induction l with
  | nil => intro k; rfl
  | cons e t ih =>
    intro k
    rw [List.map_cons, dget?_cons, dget?_cons]
    by_cases h : e.1 = k
    · rw [if_pos h, if_pos h]
      rfl
    · rw [if_neg h, if_neg h, ih]

theorem decode_inner_char (state : String) :
    ∀ (jl : List (String × Json)) (A : LoadedTable),
      (dkeys jl).Nodup →
      (∀ q ∈ jl, ∃ b : ℤ, 0 ≤ b ∧ b ≤ 8 ∧ q.1 = toString b) →
      ∃ A2, decode_inner state jl A = some A2 ∧
        (∀ (s2 : String) (a : ℤ), 0 ≤ a → a ≤ 8 →
          dget? A2 (s2, a) =
            if s2 = state then (dget? jl (toString a)).or (dget? A (s2, a))
            else dget? A (s2, a)) ∧
        ∀ e2 ∈ A2, e2 ∈ A ∨ (0 ≤ e2.1.2 ∧ e2.1.2 ≤ 8) := by
  intro jl
  induction jl with
  | nil =>
    intro A _ _
    refine ⟨A, decode_inner_nil state A, ?_, fun e2 he2 => Or.inl he2⟩
    intro s2 a _ _
    by_cases hs : s2 = state
    · rw [if_pos hs, dget?_nil, Option.none_or]
    · rw [if_neg hs]
  | cons q rest ih =>
    intro A hnd hkeys
    obtain ⟨b, hb0, hb8, hqb⟩ := hkeys q (List.mem_cons_self _ _)
    have hpq : pyIntOfString q.1 = some b := by
      rw [hqb]
      exact pyInt_toString_range b hb0 hb8
    rw [dkeys, List.map_cons, List.nodup_cons] at hnd
    obtain ⟨A2, hA2, hchar, hkeys2⟩ :=
      ih (dset A (state, b) q.2) hnd.2
        (fun x hx => hkeys x (List.mem_cons_of_mem _ hx))
    refine ⟨A2, ?_, ?_, ?_⟩
    · rw [decode_inner_cons, hpq]
      exact hA2
    · intro s2 a ha0 ha8
      rw [hchar s2 a ha0 ha8]
      by_cases hs : s2 = state
      · rw [if_pos hs, if_pos hs]
        subst hs
        rw [dget?_cons]
        by_cases hqa : q.1 = toString a
        · rw [if_pos hqa]
          have hab : b = a :=
            toString_inj_range b a hb0 hb8 ha0 ha8 (by rw [← hqb, hqa])
          have hrn : dget? rest (toString a) = none := by
            apply dget?_eq_none
            rw [← hqa]
            exact hnd.1
          rw [hrn, Option.none_or]
          subst hab
          rw [dget?_dset_self]
          rfl
        · rw [if_neg hqa]
          have hba : (s2, a) ≠ (s2, b) := by
            intro hcon
            have hc2 : a = b := (Prod.mk.injEq .. ▸ hcon).2
            exact hqa (by rw [hqb, hc2])
          rw [dget?_dset_ne _ _ _ _ hba]
      · rw [if_neg hs, if_neg hs]
        have hba : (s2, a) ≠ (state, b) := by
          intro hcon
          rcases Prod.mk.injEq .. ▸ hcon with ⟨hc1, _⟩
          exact hs hc1
        rw [dget?_dset_ne _ _ _ _ hba]
    · intro e2 he2
      rcases hkeys2 e2 he2 with h | h
      · rcases mem_dset _ _ _ e2 h with h1 | h1
        · exact Or.inl h1
        · right
          rw [h1]
          exact ⟨hb0, hb8⟩
      · exact Or.inr h

theorem decode_outer_char :
    ∀ (nl : List (String × Json)) (A : LoadedTable),
      (dkeys nl).Nodup →
      (∀ p ∈ nl, ∃ il, p.2 = Json.obj il ∧ (dkeys il).Nodup ∧
        ∀ q ∈ il, ∃ b : ℤ, 0 ≤ b ∧ b ≤ 8 ∧ q.1 = toString b) →
      ∃ T, nl.foldl outer_step (some A) = some T ∧
        (∀ (s2 : String) (a : ℤ), 0 ≤ a → a ≤ 8 →
          dget? T (s2, a) =
            ((dget? nl s2).bind fun jv =>
              match jv with
              | Json.obj il => dget? il (toString a)
              | _ => none).or (dget? A (s2, a))) ∧
        ∀ e2 ∈ T, e2 ∈ A ∨ (0 ≤ e2.1.2 ∧ e2.1.2 ≤ 8) := by
  intro nl
  induction nl with
  | nil =>
    intro A _ _
    refine ⟨A, rfl, ?_, fun e2 he2 => Or.inl he2⟩
    intro s2 a _ _
    rw [dget?_nil, Option.none_bind, Option.none_or]
  | cons p rest ih =>
    intro A hnd hvals
    obtain ⟨il, hil, hilnd, hilkeys⟩ := hvals p (List.mem_cons_self _ _)
    obtain ⟨A1, hA1, hchar1, hkeys1⟩ :=
      decode_inner_char p.1 il A hilnd hilkeys
    rw [dkeys, List.map_cons, List.nodup_cons] at hnd
    obtain ⟨T, hT, hchar, hkeysT⟩ :=
      ih A1 hnd.2 (fun x hx => hvals x (List.mem_cons_of_mem _ hx))
    refine ⟨T, ?_, ?_, ?_⟩
    · rw [List.foldl_cons, outer_step_some, hil]
      dsimp only
      rw [hA1]
      exact hT
    · intro s2 a ha0 ha8
      rw [hchar s2 a ha0 ha8, dget?_cons]
      by_cases hps : p.1 = s2
      · rw [if_pos hps]
        have hrn : dget? rest s2 = none := by
          apply dget?_eq_none
          rw [← hps]
          exact hnd.1
        rw [hrn, Option.none_bind, Option.none_or, Option.some_bind, hil]
        rw [hchar1 s2 a ha0 ha8, if_pos hps.symm]
      · rw [if_neg hps]
        rw [hchar1 s2 a ha0 ha8, if_neg (fun hcon => hps hcon.symm)]
    · intro e2 he2
      rcases hkeysT e2 he2 with h | h
      · exact hkeys1 e2 h
      · exact Or.inr h

/-- Claim C6: for a table whose keys are 9-character states paired with
actions in [0,8], saving and then loading into an empty table reproduces an
identical table: every (state, action) key in range maps to the same stored
value (wrapped as a JSON number, since the loader stores leaf values
as-is), and the loaded table holds no out-of-range action key. -/
theorem save_load_roundtrip (Q : QTable)
    (hnodup : (dkeys Q).Nodup)
    (hrange : ∀ e ∈ Q, 0 ≤ e.1.2 ∧ e.1.2 ≤ 8)
    (hstates : ∀ e ∈ Q, e.1.1.length = 9) :
    ∃ T : LoadedTable,
      load_q_table (FileData.json (save_q_table Q)) = Except.ok T ∧
      (∀ (s : String) (a : ℤ), 0 ≤ a → a ≤ 8 →
        dget? T (s, a) = (dget? Q (s, a)).map Json.num) ∧
      ∀ e ∈ T, 0 ≤ e.1.2 ∧ e.1.2 ≤ 8 := by
  obtain ⟨h1, h2, h3⟩ := build_q_data_inv Q hrange
  have hkeyseq : dkeys ((build_q_data Q).map fun p =>
      (p.1, Json.obj (p.2.map fun q => (q.1, Json.num q.2)))) =
      dkeys (build_q_data Q) := by
    rw [dkeys, dkeys, List.map_map]
    rfl
  have hnlnd : (dkeys ((build_q_data Q).map fun p =>
      (p.1, Json.obj (p.2.map fun q => (q.1, Json.num q.2))))).Nodup := by
    rw [hkeyseq]
    exact h1
  have hnlvals : ∀ p ∈ (build_q_data Q).map fun p =>
      (p.1, Json.obj (p.2.map fun q => (q.1, Json.num q.2))),
      ∃ il, p.2 = Json.obj il ∧ (dkeys il).Nodup ∧
        ∀ q ∈ il, ∃ b : ℤ, 0 ≤ b ∧ b ≤ 8 ∧ q.1 = toString b := by
    intro p hp
    rcases List.mem_map.1 hp with ⟨p0, hp0, rfl⟩
    refine ⟨p0.2.map fun q => (q.1, Json.num q.2), rfl, ?_, ?_⟩
    · have hk2 : dkeys (p0.2.map fun q => (q.1, Json.num q.2)) =
          dkeys p0.2 := by
        rw [dkeys, dkeys, List.map_map]
        rfl
      rw [hk2]
      exact h2 p0 hp0
    · intro q hq
      rcases List.mem_map.1 hq with ⟨q0, hq0, rfl⟩
      obtain ⟨b, hb0, hb8, hb⟩ := h3 p0 hp0 q0 hq0
      exact ⟨b, hb0, hb8, hb⟩
  obtain ⟨T, hT, hchar, hkeysT⟩ :=
    decode_outer_char ((build_q_data Q).map fun p =>
      (p.1, Json.obj (p.2.map fun q => (q.1, Json.num q.2)))) [] hnlnd hnlvals
  refine ⟨T, ?_, ?_, ?_⟩
  · rw [save_q_table]
    have hdo : decode_outer ((build_q_data Q).map fun p =>
        (p.1, Json.obj (p.2.map fun q => (q.1, Json.num q.2)))) = some T := hT
    rw [load_q_table, hdo]
  · intro s a ha0 ha8
    rw [hchar s a ha0 ha8, dget?_nil, Option.or_none]
    rw [show dget? ((build_q_data Q).map fun p =>
        (p.1, Json.obj (p.2.map fun q => (q.1, Json.num q.2)))) s =
        (dget? (build_q_data Q) s).map fun il =>
          Json.obj (il.map fun q => (q.1, Json.num q.2)) from
      dget?_map_val (fun il => Json.obj (il.map fun q => (q.1, Json.num q.2)))
        (build_q_data Q) s]
    have hb := build_lookup2 Q s a hnodup hrange ha0 ha8
    rw [lookup2] at hb
    cases hq : dget? (build_q_data Q) s with
    | none =>
      rw [hq, Option.none_bind] at hb
      rw [← hb]
      rfl
    | some il =>
      rw [hq, Option.some_bind] at hb
      rw [← hb]
      show dget? (il.map fun q => (q.1, Json.num q.2)) (toString a) =
        (dget? il (toString a)).map Json.num
      exact dget?_map_val Json.num il (toString a)
  · intro e he
    rcases hkeysT e he with h | h
    · exact absurd h (List.not_mem_nil e)
    · exact h

/-- Witness for C6 at a concrete two-entry table. -/
theorem save_load_roundtrip_witness :
    (dkeys [((("X   O    " : String), (3 : ℤ)), (1 / 2 : ℚ)),
      ((("X   O    " : String), (5 : ℤ)), (-1 / 4 : ℚ))]).Nodup ∧
      ∃ T : LoadedTable,
        load_q_table (FileData.json (save_q_table
          [((("X   O    " : String), (3 : ℤ)), (1 / 2 : ℚ)),
            ((("X   O    " : String), (5 : ℤ)), (-1 / 4 : ℚ))])) =
          Except.ok T ∧
        (∀ (s : String) (a : ℤ), 0 ≤ a → a ≤ 8 →
          dget? T (s, a) =
            (dget? [((("X   O    " : String), (3 : ℤ)), (1 / 2 : ℚ)),
              ((("X   O    " : String), (5 : ℤ)), (-1 / 4 : ℚ))]
              (s, a)).map Json.num) ∧
        ∀ e ∈ T, 0 ≤ e.1.2 ∧ e.1.2 ≤ 8 :=
  ⟨by decide,
    save_load_roundtrip
      [((("X   O    " : String), (3 : ℤ)), (1 / 2 : ℚ)),
        ((("X   O    " : String), (5 : ℤ)), (-1 / 4 : ℚ))]
      (by decide) (by decide) (by decide)⟩

end TTT
